import Mathlib

/-!
Shallow embedding of `magic_pdf/model/operators.py` (class `InferenceResult`)
together with the Python object semantics its contracts depend on.

Python data is modelled with an explicit heap: mutable objects (lists, dicts)
live in heap cells addressed by natural numbers, so aliasing and in-place
mutation are expressible.  `copy.deepcopy` is modelled by `deepcopyAux`
(fuelled), and external collaborators (`pdf_parse_union`, `classify`,
`draw_model_bbox`, the filesystem) are modelled as explicit parameters or,
where the spec fixes their behaviour, as spec-modelled definitions.
-/

set_option maxHeartbeats 1000000

/-! ## Python object heap -/

/-- A heap cell: a Python object.  Strings and numbers are immutable
primitives; lists and dicts hold references: heap addresses, which are
naturals. -/
inductive HVal where
  | vstr : String → HVal
  | vnat : Nat → HVal
  | vlist : List Nat → HVal
  | vdict : List String → List Nat → HVal
deriving DecidableEq, Repr

/-- The heap: cell at address `a` is `h[a]?`; allocation appends. -/
abbrev Heap := List HVal

/-- Natesses directly referenced by a cell. -/
def childrenOf : HVal → List Nat
  | .vstr _ => []
  | .vnat _ => []
  | .vlist as => as
  | .vdict _ vs => vs

/-- A pure (heap-free) Python value tree, used to talk about the *content*
of a heap structure. -/
inductive Val where
  | vstr : String → Val
  | vnat : Nat → Val
  | vlist : List Val → Val
  | vdict : List String → List Val → Val

mutual

def Val.decEq : (a b : Val) → Decidable (a = b)
  | .vstr a, .vstr b =>
    match String.decEq a b with
    | isTrue h => isTrue (by rw [h])
    | isFalse h => isFalse (fun hh => h (Val.vstr.inj hh))
  | .vnat a, .vnat b =>
    match Nat.decEq a b with
    | isTrue h => isTrue (by rw [h])
    | isFalse h => isFalse (fun hh => h (Val.vnat.inj hh))
  | .vlist xs, .vlist ys =>
    match Val.decEqList xs ys with
    | isTrue h => isTrue (by rw [h])
    | isFalse h => isFalse (fun hh => h (Val.vlist.inj hh))
  | .vdict ka va, .vdict kb vb =>
    match inferInstanceAs (Decidable (ka = kb)), Val.decEqList va vb with
    | isTrue h1, isTrue h2 => isTrue (by rw [h1, h2])
    | isFalse h1, _ => isFalse (fun hh => h1 (Val.vdict.inj hh).1)
    | _, isFalse h2 => isFalse (fun hh => h2 (Val.vdict.inj hh).2)
  | .vstr _, .vnat _ => isFalse (fun hh => Val.noConfusion hh)
  | .vstr _, .vlist _ => isFalse (fun hh => Val.noConfusion hh)
  | .vstr _, .vdict _ _ => isFalse (fun hh => Val.noConfusion hh)
  | .vnat _, .vstr _ => isFalse (fun hh => Val.noConfusion hh)
  | .vnat _, .vlist _ => isFalse (fun hh => Val.noConfusion hh)
  | .vnat _, .vdict _ _ => isFalse (fun hh => Val.noConfusion hh)
  | .vlist _, .vstr _ => isFalse (fun hh => Val.noConfusion hh)
  | .vlist _, .vnat _ => isFalse (fun hh => Val.noConfusion hh)
  | .vlist _, .vdict _ _ => isFalse (fun hh => Val.noConfusion hh)
  | .vdict _ _, .vstr _ => isFalse (fun hh => Val.noConfusion hh)
  | .vdict _ _, .vnat _ => isFalse (fun hh => Val.noConfusion hh)
  | .vdict _ _, .vlist _ => isFalse (fun hh => Val.noConfusion hh)

def Val.decEqList : (xs ys : List Val) → Decidable (xs = ys)
  | [], [] => isTrue rfl
  | [], _ :: _ => isFalse (fun hh => List.noConfusion hh)
  | _ :: _, [] => isFalse (fun hh => List.noConfusion hh)
  | x :: xs, y :: ys =>
    match Val.decEq x y, Val.decEqList xs ys with
    | isTrue h1, isTrue h2 => isTrue (by rw [h1, h2])
    | isFalse h1, _ => isFalse (fun hh => h1 (List.cons.inj hh).1)
    | _, isFalse h2 => isFalse (fun hh => h2 (List.cons.inj hh).2)

end

instance : DecidableEq Val := Val.decEq

/-- Sequence a list of options. -/
def optList : List (Option α) → Option (List α)
  | [] => some []
  | none :: _ => none
  | some v :: rest => (optList rest).map (v :: ·)

/-- Read the value tree rooted at address `a` (fuelled, since an arbitrary
heap may be cyclic). -/
def readValAux (h : Heap) : Nat → Nat → Option Val
  | 0, _ => none
  | g + 1, a =>
    match h[a]? with
    | none => none
    | some (.vstr s) => some (.vstr s)
    | some (.vnat n) => some (.vnat n)
    | some (.vlist as) => (optList (as.map fun b => readValAux h g b)).map Val.vlist
    | some (.vdict ks vs) => (optList (vs.map fun b => readValAux h g b)).map (Val.vdict ks)

/-- Copy each child in sequence, threading the heap. -/
def copyChildren (cp : Heap → Nat → Option (Heap × Nat)) :
    Heap → List Nat → Option (Heap × List Nat)
  | h, [] => some (h, [])
  | h, a :: as =>
    match cp h a with
    | none => none
    | some (h₁, b) =>
      match copyChildren cp h₁ as with
      | none => none
      | some (h₂, bs) => some (h₂, b :: bs)

/-- Model of `copy.deepcopy`: recursively clone the structure rooted at `a`
into freshly allocated cells (fuelled). -/
def deepcopyAux : Nat → Heap → Nat → Option (Heap × Nat)
  | 0, _, _ => none
  | f + 1, h, a =>
    match h[a]? with
    | none => none
    | some (.vstr s) => some (h ++ [.vstr s], h.length)
    | some (.vnat n) => some (h ++ [.vnat n], h.length)
    | some (.vlist as) =>
      match copyChildren (deepcopyAux f) h as with
      | none => none
      | some (h₁, bs) => some (h₁ ++ [.vlist bs], h₁.length)
    | some (.vdict ks vs) =>
      match copyChildren (deepcopyAux f) h vs with
      | none => none
      | some (h₁, bs) => some (h₁ ++ [.vdict ks bs], h₁.length)

/-! ## Python dict operations on the extraction-result mapping -/

/-- The mapping returned by the extraction procedure (a Python dict of
string keys, in insertion order). -/
abbrev ResMap := List (String × Val)

def containsKey (m : ResMap) (k : String) : Bool :=
  m.any fun kv => kv.1 == k

/-- Python dict assignment `m[k] = v`: overwrite in place if the key is
present, otherwise append preserving insertion order. -/
def dictSet (m : ResMap) (k : String) (v : Val) : ResMap :=
  if containsKey m k then m.map fun kv => if kv.1 == k then (k, v) else kv
  else m ++ [(k, v)]

/-- Python dict lookup `m.get(k)`. -/
def dictGet (m : ResMap) (k : String) : Option Val :=
  (m.find? fun kv => kv.1 == k).map Prod.snd

/-! ## Constants and external collaborator contracts -/

/-- Modelled from the spec: `PARSE_TYPE_TXT` from `magic_pdf/config/constants`
(not under `src/`); the spec fixes the text-mode tag to `"txt"`. -/
def PARSE_TYPE_TXT : String := "txt"

/-- Modelled from the spec: `PARSE_TYPE_OCR` from `magic_pdf/config/constants`
(not under `src/`); the spec fixes the OCR-mode tag to `"ocr"`. -/
def PARSE_TYPE_OCR : String := "ocr"

/-- Modelled from the spec: `__version__` from `magic_pdf/libs/version`
(not under `src/`); a single process-wide immutable version string. -/
def MAGIC_PDF_VERSION : String := "1.0.0"

/-- Modelled from the spec: `SupportedPdfParseMethod` from
`magic_pdf/config/enums` (not under `src/`), an enumeration `{TXT, OCR}`. -/
inductive SupportedPdfParseMethod where
  | TXT
  | OCR
deriving DecidableEq, Repr

/-- A value the external classifier may hand back: either a member of the
strategy enumeration, or (Python being dynamically typed) some other value. -/
inductive ClassifierOut where
  | strat : SupportedPdfParseMethod → ClassifierOut
  | other : String → ClassifierOut
deriving DecidableEq, Repr

/-- A Python exception surfacing from a collaborator. -/
inductive PyErr where
  | exn : String → PyErr
  | fileNotFoundError : String → PyErr
deriving DecidableEq, Repr

/-- Decidable equality for raised-or-returned outcomes. -/
def exceptDecEq {ε α : Type _} [DecidableEq ε] [DecidableEq α] :
    (x y : Except ε α) → Decidable (x = y)
  | Except.error e1, Except.error e2 =>
    match decEq e1 e2 with
    | isTrue h => isTrue (by rw [h])
    | isFalse h => isFalse (fun hh => h (Except.error.inj hh))
  | Except.ok a1, Except.ok a2 =>
    match decEq a1 a2 with
    | isTrue h => isTrue (by rw [h])
    | isFalse h => isFalse (fun hh => h (Except.ok.inj hh))
  | Except.error _, Except.ok _ => isFalse (fun hh => Except.noConfusion hh)
  | Except.ok _, Except.error _ => isFalse (fun hh => Except.noConfusion hh)

instance {ε α : Type _} [DecidableEq ε] [DecidableEq α] : DecidableEq (Except ε α) :=
  exceptDecEq

/-- Opaque handle for the image writer collaborator. -/
structure DataWriter where
  writerId : Nat
deriving DecidableEq, Repr

/-- The dataset collaborator: raw document bytes plus per-page content. -/
structure Dataset where
  data_bits : List Nat
  pages : List Val
deriving DecidableEq

structure InferenceResult where
  infer_res : Nat
  dataset : Dataset
deriving DecidableEq

structure PipeResult where
  pipe_res : ResMap
  dataset : Dataset
deriving DecidableEq

/-- The arguments `InferenceResult` forwards to `pdf_parse_union`. -/
structure ParseArgs where
  dataset : Dataset
  imageWriter : DataWriter
  method : SupportedPdfParseMethod
  start_page_id : Nat
  end_page_id : Option Nat
  debug_mode : Bool
  lang : Option String
deriving DecidableEq

/-- The external extraction procedure `pdf_parse_union`: receives the heap,
the address of the (copied) inference sequence and the forwarded arguments;
may mutate the heap and either returns a result mapping or raises. -/
abbrev ParseFn := Heap → Nat → ParseArgs → Heap × Except PyErr ResMap

/-- The external classifier `classify`: a pure function of the document
bytes that returns a strategy or raises. -/
abbrev ClassifyFn := List Nat → Except PyErr ClassifierOut

/-! ## The operators of `InferenceResult` (from `operators.py`) -/

/-- `get_infer_res`: returns the live stored reference (no copy). -/
def InferenceResult.get_infer_res (ir : InferenceResult) : Nat :=
  ir.infer_res

/-- `apply(proc)`: run `proc` on a deep copy of the stored inference
sequence; `none` is a modelling artifact (insufficient copy fuel). -/
def InferenceResult.apply (fuel : Nat) (h : Heap) (ir : InferenceResult)
    (proc : Heap → Nat → Heap × Except PyErr α) : Option (Heap × Except PyErr α) :=
  match deepcopyAux fuel h ir.infer_res with
  | none => none
  | some (h', a') => some (proc h' a')

/-- The closure `proc` built inside `pipe_txt_mode` / `pipe_ocr_mode`:
invoke `pdf_parse_union`, then on success set `_parse_type`,
`_version_name` and (only when supplied non-null) `lang`, and wrap the
annotated mapping in a `PipeResult`. -/
def procAnnotate (parse : ParseFn) (ptype : String) (ds : Dataset) (args : ParseArgs)
    (h : Heap) (a : Nat) : Heap × Except PyErr PipeResult :=
  match parse h a args with
  | (h₁, .error e) => (h₁, .error e)
  | (h₁, .ok res) =>
    let res := dictSet res "_parse_type" (Val.vstr ptype)
    let res := dictSet res "_version_name" (Val.vstr MAGIC_PDF_VERSION)
    let res :=
      match args.lang with
      | some l => dictSet res "lang" (Val.vstr l)
      | none => res
    (h₁, .ok ⟨res, ds⟩)

/-- The annotation the closures perform on a successful extraction mapping:
set `_parse_type` and `_version_name`, then `lang` only when supplied. -/
def annotateMap (ptype : String) (lang : Option String) (res : ResMap) : ResMap :=
  let r1 := dictSet res "_parse_type" (Val.vstr ptype)
  let r2 := dictSet r1 "_version_name" (Val.vstr MAGIC_PDF_VERSION)
  match lang with
  | some l => dictSet r2 "lang" (Val.vstr l)
  | none => r2

def InferenceResult.pipe_txt_mode (fuel : Nat) (parse : ParseFn) (h : Heap)
    (ir : InferenceResult) (imageWriter : DataWriter) (start_page_id : Nat)
    (end_page_id : Option Nat) (debug_mode : Bool) (lang : Option String) :
    Option (Heap × Except PyErr PipeResult) :=
  ir.apply fuel h (procAnnotate parse PARSE_TYPE_TXT ir.dataset
    ⟨ir.dataset, imageWriter, SupportedPdfParseMethod.TXT,
      start_page_id, end_page_id, debug_mode, lang⟩)

def InferenceResult.pipe_ocr_mode (fuel : Nat) (parse : ParseFn) (h : Heap)
    (ir : InferenceResult) (imageWriter : DataWriter) (start_page_id : Nat)
    (end_page_id : Option Nat) (debug_mode : Bool) (lang : Option String) :
    Option (Heap × Except PyErr PipeResult) :=
  ir.apply fuel h (procAnnotate parse PARSE_TYPE_OCR ir.dataset
    ⟨ir.dataset, imageWriter, SupportedPdfParseMethod.OCR,
      start_page_id, end_page_id, debug_mode, lang⟩)

/-- `pipe_auto_mode`: classify the document bytes, then dispatch.  The
Python test is `pdf_proc_method == SupportedPdfParseMethod.TXT`; anything
else falls into the `else` branch. -/
def InferenceResult.pipe_auto_mode (fuel : Nat) (parse : ParseFn) (classify : ClassifyFn)
    (h : Heap) (ir : InferenceResult) (imageWriter : DataWriter) (start_page_id : Nat)
    (end_page_id : Option Nat) (debug_mode : Bool) (lang : Option String) :
    Option (Heap × Except PyErr PipeResult) :=
  match classify ir.dataset.data_bits with
  | .error e => some (h, .error e)
  | .ok pdf_proc_method =>
    if pdf_proc_method = ClassifierOut.strat SupportedPdfParseMethod.TXT then
      ir.pipe_txt_mode fuel parse h imageWriter start_page_id end_page_id debug_mode lang
    else
      ir.pipe_ocr_mode fuel parse h imageWriter start_page_id end_page_id debug_mode lang

/-- Selector for the three public pipe-mode operations. -/
inductive PipeModeCall where
  | txt
  | ocr
  | auto
deriving DecidableEq, Repr

def pipeRun (m : PipeModeCall) (fuel : Nat) (parse : ParseFn) (classify : ClassifyFn)
    (h : Heap) (ir : InferenceResult) (imageWriter : DataWriter) (start_page_id : Nat)
    (end_page_id : Option Nat) (debug_mode : Bool) (lang : Option String) :
    Option (Heap × Except PyErr PipeResult) :=
  match m with
  | .txt => ir.pipe_txt_mode fuel parse h imageWriter start_page_id end_page_id debug_mode lang
  | .ocr => ir.pipe_ocr_mode fuel parse h imageWriter start_page_id end_page_id debug_mode lang
  | .auto => ir.pipe_auto_mode fuel parse classify h imageWriter start_page_id
      end_page_id debug_mode lang

/-! ## Filesystem model and `draw_model` -/

/-- Index of the last slash of the path (Python `p.rfind(sep)`). -/
def lastSlashIdxAux : List Char → Nat → Option Nat
  | [], _ => none
  | c :: cs, i =>
    match lastSlashIdxAux cs (i + 1) with
    | some j => some j
    | none => if c = '/' then some i else none

def lastSlashIdx (cs : List Char) : Option Nat :=
  lastSlashIdxAux cs 0

/-- Model of `posixpath.dirname`: everything before the final slash, with
trailing slashes stripped unless the head is all slashes. -/
def osDirname (p : String) : String :=
  let cs := p.toList
  let i :=
    match lastSlashIdx cs with
    | some j => j + 1
    | none => 0
  let head := cs.take i
  if head.any fun c => c != '/' then
    String.mk ((head.reverse.dropWhile fun c => c == '/').reverse)
  else
    String.mk head

/-- Model of `posixpath.basename`: everything after the final slash. -/
def osBasename (p : String) : String :=
  let cs := p.toList
  let i :=
    match lastSlashIdx cs with
    | some j => j + 1
    | none => 0
  String.mk (cs.drop i)

/-- The filesystem state: the set of existing directories. -/
abbrev FS := List String

/-- Model of `os.path.exists`: the empty path never exists. -/
def osPathExists (fs : FS) (p : String) : Bool :=
  p != "" && fs.contains p

/-- Model of `os.makedirs(p, exist_ok=True)`: raises `FileNotFoundError`
on the empty path, otherwise records the directory as existing. -/
def osMakedirs (fs : FS) (p : String) : Except PyErr FS :=
  if p == "" then Except.error (PyErr.fileNotFoundError p)
  else Except.ok (p :: fs)

/-- The delegation to the external renderer `draw_model_bbox`: the address
of the deep copy it receives, the dataset, and the derived directory and
filename. -/
structure RenderCall where
  modelCopy : Nat
  dataset : Dataset
  dirName : String
  baseName : String
deriving DecidableEq

/-- `draw_model(file_path)`: derive directory and filename, create the
directory when absent, then delegate a deep copy of the stored sequence to
the renderer.  The effect on the renderer is returned as data. -/
def InferenceResult.draw_model (fuel : Nat) (h : Heap) (fs : FS) (ir : InferenceResult)
    (file_path : String) : Option (Except PyErr (Heap × FS × RenderCall)) :=
  let dir_name := osDirname file_path
  let base_name := osBasename file_path
  match (if osPathExists fs dir_name then Except.ok fs else osMakedirs fs dir_name) with
  | Except.error e => some (Except.error e)
  | Except.ok fs' =>
    match deepcopyAux fuel h ir.infer_res with
    | none => none
    | some (h', a') => some (Except.ok (h', fs', ⟨a', ir.dataset, dir_name, base_name⟩))

/-! ## Spec-modelled extraction procedure (for the page-window claim) -/

/-- Modelled from the spec: the external extraction procedure
`pdf_parse_union` (from `magic_pdf/pdf_parse_union_core_v2`, not under
`src/`).  Per the spec it resolves an unset `end_page_id` to the document's
last page and processes pages `start_page_id` through that last page,
returning a mapping whose `pdf_info` entry holds the processed pages. -/
def pdf_parse_union_model : ParseFn := fun h _ args =>
  let n := args.dataset.pages.length
  let endId := args.end_page_id.getD (n - 1)
  let processed := (List.range n).filterMap fun i =>
    if args.start_page_id ≤ i ∧ i ≤ endId then args.dataset.pages[i]? else none
  (h, Except.ok [("pdf_info", Val.vlist processed)])

/-! ## Heap predicates -/

/-- Every reference in the heap points below `n`. -/
def ClosedBelow (h : Heap) (n : Nat) : Prop :=
  ∀ (a : Nat) (v : HVal), h[a]? = some v → ∀ c ∈ childrenOf v, c < n

/-- Decidable check that the heap has no dangling references. -/
def heapClosed (h : Heap) : Bool :=
  h.all fun v => (childrenOf v).all fun c => c < h.length

/-- Reachability through heap references. -/
inductive Reach (h : Heap) (a : Nat) : Nat → Prop
  | refl : Reach h a a
  | step {b c : Nat} {v : HVal} : Reach h a b → h[b]? = some v →
      c ∈ childrenOf v → Reach h a c

/-- The extraction procedure behaves like a Python callable: it can mutate
only cells reachable from the argument it is handed (fresh allocation is
unrestricted). -/
def FramesOK (parse : ParseFn) : Prop :=
  ∀ (h : Heap) (a : Nat) (args : ParseArgs) (b : Nat),
    b < h.length → ¬ Reach h a b → ((parse h a args).1)[b]? = h[b]?

/-- The extraction procedure never creates dangling references (Python
code cannot forge addresses). -/
def PreservesClosed (parse : ParseFn) : Prop :=
  ∀ h a args, ClosedBelow h h.length →
    ClosedBelow (parse h a args).1 ((parse h a args).1).length

def MutOK (parse : ParseFn) : Prop :=
  FramesOK parse ∧ PreservesClosed parse

/-- All cells allocated at or above `n` have children at or above `n` (and
in bounds). -/
def FreshClosed (n : Nat) (h' : Heap) : Prop :=
  ∀ (b : Nat) (v : HVal), n ≤ b → h'[b]? = some v →
    ∀ c ∈ childrenOf v, n ≤ c ∧ c < h'.length

/-- Specification of a successful `deepcopyAux` call. -/
def VSpec (h : Heap) (a : Nat) (h' : Heap) (a' : Nat) : Prop :=
  (∃ t, h' = h ++ t) ∧ h.length ≤ a' ∧ a' < h'.length ∧ FreshClosed h.length h' ∧
    ∀ g v, readValAux h g a = some v → readValAux h' g a' = some v

/-- Specification of a successful `copyChildren` call. -/
def LSpec (h : Heap) (as : List Nat) (h' : Heap) (bs : List Nat) : Prop :=
  (∃ t, h' = h ++ t) ∧ bs.length = as.length ∧
    (∀ b ∈ bs, h.length ≤ b ∧ b < h'.length) ∧ FreshClosed h.length h' ∧
    ∀ g vs, optList (as.map fun x => readValAux h g x) = some vs →
      optList (bs.map fun x => readValAux h' g x) = some vs

/-! ## Concrete instances used to exercise the theorems -/

def dsW : Dataset := ⟨[0], []⟩

/-- A two-cell heap: the stored inference sequence at address 1 is a
one-element list holding the string at address 0. -/
def hW : Heap := [HVal.vstr "w", HVal.vlist [0]]

def irW : InferenceResult := ⟨1, dsW⟩

/-- An extraction procedure that mutates nothing and returns an empty mapping. -/
def idParse : ParseFn := fun h _ _ => (h, Except.ok [])

/-- An extraction procedure that always raises. -/
def errParse : ParseFn := fun h _ _ => (h, Except.error (PyErr.exn "parse failed"))

/-- An extraction procedure whose output depends on the content of the
inference copy it receives. -/
def spyParse : ParseFn := fun h a _ =>
  (h, match readValAux h 9 a with
      | some v => Except.ok [("seen", v)]
      | none => Except.error (PyErr.exn "unreadable"))

def clsW : ClassifyFn := fun _ => Except.ok (ClassifierOut.strat SupportedPdfParseMethod.TXT)

def clsOcr : ClassifyFn := fun _ => Except.ok (ClassifierOut.strat SupportedPdfParseMethod.OCR)

def clsErr : ClassifyFn := fun _ => Except.error (PyErr.exn "classify failed")

def clsOther : ClassifyFn := fun _ => Except.ok (ClassifierOut.other "unknown")

def iwW : DataWriter := ⟨0⟩

def hW2 : Heap := hW ++ [HVal.vstr "w", HVal.vlist [2]]

def hW3 : Heap := hW2 ++ [HVal.vstr "w", HVal.vlist [4]]

def rW1 : Except PyErr PipeResult :=
  Except.ok ⟨[("_parse_type", Val.vstr "txt"),
    ("_version_name", Val.vstr MAGIC_PDF_VERSION)], dsW⟩

def rW2 : Except PyErr PipeResult :=
  Except.ok ⟨[("_parse_type", Val.vstr "ocr"),
    ("_version_name", Val.vstr MAGIC_PDF_VERSION)], dsW⟩

/-- The heap after the caller mutates, through the live reference returned
by `get_infer_res`, the stored list: its single element is replaced by a
freshly allocated string. -/
def hMutW : Heap := (hW ++ [HVal.vstr "B"]).set irW.get_infer_res (HVal.vlist [2])

/-- A three-page dataset. -/
def ds3 : Dataset := ⟨[1, 2, 3], [Val.vstr "p1", Val.vstr "p2", Val.vstr "p3"]⟩

def ir3 : InferenceResult := ⟨1, ds3⟩

def fsW : FS := []

/-! ## Basic lemmas -/

theorem getElem?_append_lt {α : Type _} {l₁ l₂ : List α} {n : Nat} (h : n < l₁.length) :
    (l₁ ++ l₂)[n]? = l₁[n]? := by
  rw [List.getElem?_append]
  exact if_pos h

theorem optList_map_mono {α β : Type _} {f f' : α → Option β}
    (hmono : ∀ a v, f a = some v → f' a = some v) :
    ∀ (l : List α) (vs : List β), optList (l.map f) = some vs →
      optList (l.map f') = some vs := by
  intro l
  induction l with
  | nil => intro vs hv; simpa using hv
  | cons x xs ih =>
    intro vs hv
    cases hfx : f x with
    | none => rw [List.map_cons, hfx] at hv; simp [optList] at hv
    | some v =>
      rw [List.map_cons, hfx] at hv
      simp only [optList] at hv
      rcases Option.map_eq_some'.mp hv with ⟨ws, hws, hcons⟩
      rw [List.map_cons, hmono x v hfx]
      simp only [optList, ih ws hws, Option.map_some']
      rw [hcons]

theorem readValAux_zero (h : Heap) (a : Nat) : readValAux h 0 a = none := rfl

theorem readValAux_mono (h t : Heap) :
    ∀ (g : Nat) (a : Nat) (v : Val), readValAux h g a = some v →
      readValAux (h ++ t) g a = some v := by
  intro g
  induction g with
  | zero => intro a v hv; simp [readValAux] at hv
  | succ g ih =>
    intro a v hv
    rw [readValAux] at hv ⊢
    cases hcell : h[a]? with
    | none => rw [hcell] at hv; simp at hv
    | some c =>
      have halen : a < h.length := by
        rcases List.getElem?_eq_some.mp hcell with ⟨hlt, _⟩
        exact hlt
      rw [getElem?_append_lt halen, hcell]
      rw [hcell] at hv
      cases c with
      | vstr s => exact hv
      | vnat n => exact hv
      | vlist as =>
        simp only at hv ⊢
        rcases Option.map_eq_some'.mp hv with ⟨vs, hvs, hv2⟩
        rw [optList_map_mono (fun b w hw => ih b w hw) as vs hvs]
        simpa using hv2
      | vdict ks vs =>
        simp only at hv ⊢
        rcases Option.map_eq_some'.mp hv with ⟨ws, hws, hv2⟩
        rw [optList_map_mono (fun b w hw => ih b w hw) vs ws hws]
        simpa using hv2

theorem readValAux_congr {n : Nat} {h h₂ : Heap}
    (hag : ∀ b, b < n → h₂[b]? = h[b]?) (hcl : ClosedBelow h n) :
    ∀ (g : Nat) (a : Nat), a < n → readValAux h₂ g a = readValAux h g a := by
  intro g
  induction g with
  | zero => intro a ha; rfl
  | succ g ih =>
    intro a ha
    rw [readValAux, readValAux, hag a ha]
    cases hcell : h[a]? with
    | none => rfl
    | some c =>
      cases c with
      | vstr s => rfl
      | vnat m => rfl
      | vlist as =>
        have hch : ∀ b ∈ as, b < n := fun b hb => hcl a _ hcell b hb
        simp only
        rw [List.map_congr_left (fun b hb => ih b (hch b hb))]
      | vdict ks vs =>
        have hch : ∀ b ∈ vs, b < n := fun b hb => hcl a _ hcell b hb
        simp only
        rw [List.map_congr_left (fun b hb => ih b (hch b hb))]

theorem closedBelow_of_heapClosed {h : Heap} (hc : heapClosed h = true) :
    ClosedBelow h h.length := by
  intro a v hv c hcv
  have hmem : v ∈ h := by
    rcases List.getElem?_eq_some.mp hv with ⟨hlt, hget⟩
    exact hget ▸ List.getElem_mem hlt
  have h1 := List.all_eq_true.mp hc v hmem
  have h2 := List.all_eq_true.mp h1 c hcv
  exact of_decide_eq_true h2

theorem Reach_ge_of_freshClosed {n : Nat} {h' : Heap} (hF : FreshClosed n h')
    {a' b : Nat} (ha : n ≤ a') (hr : Reach h' a' b) : n ≤ b := by
  induction hr with
  | refl => exact ha
  | step _ hcell hmem ih => exact (hF _ _ ih hcell _ hmem).1

theorem freshClosed_refl (h : Heap) : FreshClosed h.length h := by
  intro b v hb hv
  rw [List.getElem?_eq_none hb] at hv
  exact absurd hv (by simp)

theorem freshClosed_concat {n : Nat} {h₁ : Heap} {c : HVal}
    (hF : FreshClosed n h₁) (hc : ∀ d ∈ childrenOf c, n ≤ d ∧ d < h₁.length) :
    FreshClosed n (h₁ ++ [c]) := by
  intro b v hb hv d hd
  rcases Nat.lt_trichotomy b h₁.length with hlt | heq | hgt
  · rw [getElem?_append_lt hlt] at hv
    obtain ⟨hd1, hd2⟩ := hF b v hb hv d hd
    exact ⟨hd1, by simp; omega⟩
  · subst heq
    rw [List.getElem?_concat_length] at hv
    obtain rfl : c = v := by simpa using hv
    obtain ⟨hd1, hd2⟩ := hc d hd
    exact ⟨hd1, by simp; omega⟩
  · have : (h₁ ++ [c])[b]? = none := by
      apply List.getElem?_eq_none
      simp
      omega
    rw [this] at hv
    exact absurd hv (by simp)

theorem freshClosed_trans {nh : Nat} {hA h₁ : Heap} {t : Heap}
    (hle : nh ≤ hA.length) (hext : h₁ = hA ++ t)
    (hF1 : FreshClosed nh hA) (hF2 : FreshClosed hA.length h₁) :
    FreshClosed nh h₁ := by
  intro b v hb hv d hd
  by_cases hlt : b < hA.length
  · rw [hext, getElem?_append_lt hlt] at hv
    obtain ⟨hd1, hd2⟩ := hF1 b v hb hv d hd
    refine ⟨hd1, ?_⟩
    rw [hext]
    simp
    omega
  · obtain ⟨hd1, hd2⟩ := hF2 b v (Nat.le_of_not_lt hlt) hv d hd
    exact ⟨Nat.le_trans hle hd1, hd2⟩

/-! ## Deep copy specification -/

theorem copyChildren_spec (cp : Heap → Nat → Option (Heap × Nat))
    (hcp : ∀ h a h' a', cp h a = some (h', a') → VSpec h a h' a') :
    ∀ (as : List Nat) (h h₁ : Heap) (bs : List Nat),
      copyChildren cp h as = some (h₁, bs) → LSpec h as h₁ bs := by
  intro as
  induction as with
  | nil =>
    intro h h₁ bs hcc
    simp only [copyChildren, Option.some.injEq, Prod.mk.injEq] at hcc
    obtain ⟨rfl, rfl⟩ := hcc
    refine ⟨⟨[], by simp⟩, rfl, by simp, freshClosed_refl h, ?_⟩
    intro g vs hv
    simpa using hv
  | cons a as ih =>
    intro h hfin bs hcc
    rw [copyChildren] at hcc
    cases h1 : cp h a with
    | none => rw [h1] at hcc; simp at hcc
    | some pr =>
      obtain ⟨hA, b⟩ := pr
      rw [h1] at hcc
      dsimp only at hcc
      cases h2 : copyChildren cp hA as with
      | none => rw [h2] at hcc; simp at hcc
      | some pr2 =>
        obtain ⟨h₂, bs'⟩ := pr2
        rw [h2] at hcc
        dsimp only at hcc
        simp only [Option.some.injEq, Prod.mk.injEq] at hcc
        obtain ⟨rfl, rfl⟩ := hcc
        obtain ⟨⟨t1, rfl⟩, hb1, hb2, hF1, hC1⟩ := hcp _ _ _ _ h1
        obtain ⟨⟨t2, ht2⟩, hlen, hbs, hF2, hC2⟩ := ih _ _ _ h2
        have hlA : h.length ≤ (h ++ t1).length := by simp
        have hlA2 : (h ++ t1).length ≤ h₂.length := by rw [ht2]; simp
        refine ⟨⟨t1 ++ t2, by rw [ht2]; simp⟩, by simpa using hlen, ?_, ?_, ?_⟩
        · intro x hx
          rcases List.mem_cons.mp hx with rfl | hx'
          · exact ⟨hb1, by omega⟩
          · obtain ⟨hx1, hx2⟩ := hbs x hx'
            exact ⟨by omega, hx2⟩
        · exact freshClosed_trans hlA ht2 hF1 hF2
        · intro g vs hv
          rw [List.map_cons] at hv
          cases hra : readValAux h g a with
          | none => rw [hra] at hv; simp [optList] at hv
          | some v0 =>
            rw [hra] at hv
            simp only [optList] at hv
            rcases Option.map_eq_some'.mp hv with ⟨ws, hws, hcons⟩
            have hws2 : optList (as.map fun x => readValAux (h ++ t1) g x) = some ws :=
              optList_map_mono (fun x w hw => readValAux_mono h t1 g x w hw) as ws hws
            have htail := hC2 g ws hws2
            have hhead : readValAux h₂ g b = some v0 := by
              rw [ht2]
              exact readValAux_mono (h ++ t1) t2 g b v0 (hC1 g v0 hra)
            rw [List.map_cons, hhead]
            simp only [optList, htail, Option.map_some']
            rw [hcons]

theorem deepcopyAux_spec :
    ∀ (f : Nat) (h : Heap) (a : Nat) (h' : Heap) (a' : Nat),
      deepcopyAux f h a = some (h', a') → VSpec h a h' a' := by
  intro f
  induction f with
  | zero => intro h a h' a' hd; simp [deepcopyAux] at hd
  | succ f ih =>
    intro h a h' a' hd
    rw [deepcopyAux] at hd
    cases hcell : h[a]? with
    | none => rw [hcell] at hd; simp at hd
    | some c =>
      rw [hcell] at hd
      cases c with
      | vstr s =>
        dsimp only at hd
        simp only [Option.some.injEq, Prod.mk.injEq] at hd
        obtain ⟨rfl, rfl⟩ := hd
        refine ⟨⟨[HVal.vstr s], rfl⟩, Nat.le_refl _, by simp, ?_, ?_⟩
        · exact freshClosed_concat (freshClosed_refl h) (by simp [childrenOf])
        · intro g v hv
          cases g with
          | zero => simp [readValAux] at hv
          | succ g =>
            rw [readValAux, hcell] at hv
            rw [readValAux, List.getElem?_concat_length]
            exact hv
      | vnat n =>
        dsimp only at hd
        simp only [Option.some.injEq, Prod.mk.injEq] at hd
        obtain ⟨rfl, rfl⟩ := hd
        refine ⟨⟨[HVal.vnat n], rfl⟩, Nat.le_refl _, by simp, ?_, ?_⟩
        · exact freshClosed_concat (freshClosed_refl h) (by simp [childrenOf])
        · intro g v hv
          cases g with
          | zero => simp [readValAux] at hv
          | succ g =>
            rw [readValAux, hcell] at hv
            rw [readValAux, List.getElem?_concat_length]
            exact hv
      | vlist as =>
        dsimp only at hd
        cases hcc : copyChildren (deepcopyAux f) h as with
        | none => rw [hcc] at hd; simp at hd
        | some pr =>
          obtain ⟨h₁, bs⟩ := pr
          rw [hcc] at hd
          dsimp only at hd
          simp only [Option.some.injEq, Prod.mk.injEq] at hd
          obtain ⟨rfl, rfl⟩ := hd
          obtain ⟨⟨t, ht⟩, hlen, hbs, hF, hC⟩ :=
            copyChildren_spec _ (fun hh aa hh2 aa2 hdd => ih hh aa hh2 aa2 hdd) as h h₁ bs hcc
          refine ⟨⟨t ++ [HVal.vlist bs], by rw [ht]; simp⟩, ?_, by simp, ?_, ?_⟩
          · rw [ht]; simp
          · exact freshClosed_concat hF (by simpa [childrenOf] using hbs)
          · intro g v hv
            cases g with
            | zero => simp [readValAux] at hv
            | succ g =>
              rw [readValAux, hcell] at hv
              simp only at hv
              rcases Option.map_eq_some'.mp hv with ⟨vs, hvs, hveq⟩
              rw [readValAux, List.getElem?_concat_length]
              simp only
              have hl1 : optList (bs.map fun x => readValAux h₁ g x) = some vs := hC g vs hvs
              have hl2 : optList (bs.map fun x => readValAux (h₁ ++ [HVal.vlist bs]) g x) = some vs :=
                optList_map_mono
                  (fun x w hw => readValAux_mono h₁ [HVal.vlist bs] g x w hw) bs vs hl1
              rw [hl2, ← hveq]
              rfl
      | vdict ks vs =>
        dsimp only at hd
        cases hcc : copyChildren (deepcopyAux f) h vs with
        | none => rw [hcc] at hd; simp at hd
        | some pr =>
          obtain ⟨h₁, bs⟩ := pr
          rw [hcc] at hd
          dsimp only at hd
          simp only [Option.some.injEq, Prod.mk.injEq] at hd
          obtain ⟨rfl, rfl⟩ := hd
          obtain ⟨⟨t, ht⟩, hlen, hbs, hF, hC⟩ :=
            copyChildren_spec _ (fun hh aa hh2 aa2 hdd => ih hh aa hh2 aa2 hdd) vs h h₁ bs hcc
          refine ⟨⟨t ++ [HVal.vdict ks bs], by rw [ht]; simp⟩, ?_, by simp, ?_, ?_⟩
          · rw [ht]; simp
          · exact freshClosed_concat hF (by simpa [childrenOf] using hbs)
          · intro g v hv
            cases g with
            | zero => simp [readValAux] at hv
            | succ g =>
              rw [readValAux, hcell] at hv
              simp only at hv
              rcases Option.map_eq_some'.mp hv with ⟨ws, hws, hveq⟩
              rw [readValAux, List.getElem?_concat_length]
              simp only
              have hl1 : optList (bs.map fun x => readValAux h₁ g x) = some ws := hC g ws hws
              have hl2 : optList (bs.map fun x => readValAux (h₁ ++ [HVal.vdict ks bs]) g x) = some ws :=
                optList_map_mono
                  (fun x w hw => readValAux_mono h₁ [HVal.vdict ks bs] g x w hw) bs ws hl1
              rw [hl2, ← hveq]
              rfl

/-! ## Preservation of the stored inference sequence -/

theorem closedBelow_extend {h h' : Heap} (hcl : ClosedBelow h h.length)
    (hext : ∃ t, h' = h ++ t) (hF : FreshClosed h.length h') :
    ClosedBelow h' h'.length := by
  obtain ⟨t, rfl⟩ := hext
  intro b v hv c hc
  by_cases hb : b < h.length
  · rw [getElem?_append_lt hb] at hv
    have h3 := hcl b v hv c hc
    simp
    omega
  · exact (hF b v (Nat.le_of_not_lt hb) hv c hc).2

theorem apply_preserves {α : Type _} {fuel : Nat} {h h₂ : Heap} {ir : InferenceResult}
    {r : Except PyErr α} {proc : Heap → Nat → Heap × Except PyErr α}
    (hframe : ∀ (hh : Heap) (aa b : Nat), b < hh.length → ¬ Reach hh aa b →
      ((proc hh aa).1)[b]? = hh[b]?)
    (hclp : ∀ (hh : Heap) (aa : Nat), ClosedBelow hh hh.length →
      ClosedBelow (proc hh aa).1 (proc hh aa).1.length)
    (hcl : ClosedBelow h h.length) (ha : ir.infer_res < h.length)
    (happ : InferenceResult.apply fuel h ir proc = some (h₂, r)) :
    (∀ b, b < h.length → h₂[b]? = h[b]?) ∧ ClosedBelow h₂ h₂.length ∧
      ir.infer_res < h₂.length ∧
      (∀ g, readValAux h₂ g ir.infer_res = readValAux h g ir.infer_res) := by
  rw [InferenceResult.apply] at happ
  cases hd : deepcopyAux fuel h ir.infer_res with
  | none => rw [hd] at happ; simp at happ
  | some pr =>
    obtain ⟨h', a'⟩ := pr
    rw [hd] at happ
    dsimp only at happ
    simp only [Option.some.injEq] at happ
    have hfst : (proc h' a').1 = h₂ := by rw [happ]
    obtain ⟨⟨t, hext⟩, ha', ha'2, hF, _⟩ := deepcopyAux_spec fuel h ir.infer_res h' a' hd
    have hbelow : ∀ b, b < h.length → h₂[b]? = h[b]? := by
      intro b hb
      have hnr : ¬ Reach h' a' b := by
        intro hr
        have := Reach_ge_of_freshClosed hF ha' hr
        omega
      have hb' : b < h'.length := by
        rw [hext]
        simp
        omega
      calc h₂[b]? = ((proc h' a').1)[b]? := by rw [hfst]
        _ = h'[b]? := hframe h' a' b hb' hnr
        _ = h[b]? := by rw [hext, getElem?_append_lt hb]
    have hclh' : ClosedBelow h' h'.length := closedBelow_extend hcl ⟨t, hext⟩ hF
    have hcl2 : ClosedBelow h₂ h₂.length := by
      have hx := hclp h' a' hclh'
      rw [hfst] at hx
      exact hx
    have ha2 : ir.infer_res < h₂.length := by
      have hx := hbelow ir.infer_res ha
      rw [List.getElem?_eq_getElem ha] at hx
      rcases List.getElem?_eq_some.mp hx with ⟨hlt, _⟩
      exact hlt
    exact ⟨hbelow, hcl2, ha2, fun g => readValAux_congr hbelow hcl g ir.infer_res ha⟩

theorem procAnnotate_fst (parse : ParseFn) (ptype : String) (ds : Dataset)
    (args : ParseArgs) (h : Heap) (a : Nat) :
    (procAnnotate parse ptype ds args h a).1 = (parse h a args).1 := by
  rw [procAnnotate]
  cases hp : parse h a args with
  | mk h₁ r =>
    cases r with
    | error e => rfl
    | ok res => rfl

theorem pipe_txt_mode_preserves {fuel : Nat} {parse : ParseFn} {h h₂ : Heap}
    {ir : InferenceResult} {iw : DataWriter} {s : Nat} {e : Option Nat} {d : Bool}
    {l : Option String} {r : Except PyErr PipeResult}
    (hmut : MutOK parse) (hcl : ClosedBelow h h.length) (ha : ir.infer_res < h.length)
    (hrun : InferenceResult.pipe_txt_mode fuel parse h ir iw s e d l = some (h₂, r)) :
    (∀ b, b < h.length → h₂[b]? = h[b]?) ∧ ClosedBelow h₂ h₂.length ∧
      ir.infer_res < h₂.length ∧
      (∀ g, readValAux h₂ g ir.infer_res = readValAux h g ir.infer_res) := by
  rw [InferenceResult.pipe_txt_mode] at hrun
  refine apply_preserves ?_ ?_ hcl ha hrun
  · intro hh aa b hb hnr
    rw [procAnnotate_fst]
    exact hmut.1 hh aa _ b hb hnr
  · intro hh aa hc
    rw [procAnnotate_fst]
    exact hmut.2 hh aa _ hc

theorem pipe_ocr_mode_preserves {fuel : Nat} {parse : ParseFn} {h h₂ : Heap}
    {ir : InferenceResult} {iw : DataWriter} {s : Nat} {e : Option Nat} {d : Bool}
    {l : Option String} {r : Except PyErr PipeResult}
    (hmut : MutOK parse) (hcl : ClosedBelow h h.length) (ha : ir.infer_res < h.length)
    (hrun : InferenceResult.pipe_ocr_mode fuel parse h ir iw s e d l = some (h₂, r)) :
    (∀ b, b < h.length → h₂[b]? = h[b]?) ∧ ClosedBelow h₂ h₂.length ∧
      ir.infer_res < h₂.length ∧
      (∀ g, readValAux h₂ g ir.infer_res = readValAux h g ir.infer_res) := by
  rw [InferenceResult.pipe_ocr_mode] at hrun
  refine apply_preserves ?_ ?_ hcl ha hrun
  · intro hh aa b hb hnr
    rw [procAnnotate_fst]
    exact hmut.1 hh aa _ b hb hnr
  · intro hh aa hc
    rw [procAnnotate_fst]
    exact hmut.2 hh aa _ hc

theorem pipeRun_preserves {m : PipeModeCall} {fuel : Nat} {parse : ParseFn}
    {classify : ClassifyFn} {h h₂ : Heap} {ir : InferenceResult} {iw : DataWriter}
    {s : Nat} {e : Option Nat} {d : Bool} {l : Option String} {r : Except PyErr PipeResult}
    (hmut : MutOK parse) (hcl : ClosedBelow h h.length) (ha : ir.infer_res < h.length)
    (hrun : pipeRun m fuel parse classify h ir iw s e d l = some (h₂, r)) :
    (∀ b, b < h.length → h₂[b]? = h[b]?) ∧ ClosedBelow h₂ h₂.length ∧
      ir.infer_res < h₂.length ∧
      (∀ g, readValAux h₂ g ir.infer_res = readValAux h g ir.infer_res) := by
  cases m with
  | txt => exact pipe_txt_mode_preserves hmut hcl ha hrun
  | ocr => exact pipe_ocr_mode_preserves hmut hcl ha hrun
  | auto =>
    rw [pipeRun, InferenceResult.pipe_auto_mode] at hrun
    cases hcls : classify ir.dataset.data_bits with
    | error e2 =>
      rw [hcls] at hrun
      dsimp only at hrun
      simp only [Option.some.injEq, Prod.mk.injEq] at hrun
      obtain ⟨rfl, rfl⟩ := hrun
      exact ⟨fun b hb => rfl, hcl, ha, fun g => rfl⟩
    | ok co =>
      rw [hcls] at hrun
      dsimp only at hrun
      by_cases hco : co = ClassifierOut.strat SupportedPdfParseMethod.TXT
      · rw [if_pos hco] at hrun
        exact pipe_txt_mode_preserves hmut hcl ha hrun
      · rw [if_neg hco] at hrun
        exact pipe_ocr_mode_preserves hmut hcl ha hrun

/-! ## Dict lemmas -/

theorem find?_map_overwrite_same (k1 : String) (v : Val) :
    ∀ (m : ResMap), containsKey m k1 = true →
      (m.map fun kv => if kv.1 == k1 then (k1, v) else kv).find?
        (fun kv => kv.1 == k1) = some (k1, v) := by
  intro m
  induction m with
  | nil => intro hck; simp [containsKey] at hck
  | cons kv rest ih =>
    intro hck
    rw [List.map_cons]
    by_cases h1 : kv.1 == k1
    · rw [if_pos h1]
      rw [List.find?_cons_of_pos _ (by simp)]
    · rw [if_neg h1]
      rw [List.find?_cons_of_neg (p := fun kv : String × Val => kv.1 == k1) _ (by simpa using h1)]
      apply ih
      rw [containsKey]
      rw [containsKey, List.any_cons] at hck
      cases hkv1 : (kv.1 == k1) with
      | true => exact absurd hkv1 h1
      | false =>
        rw [hkv1] at hck
        simpa using hck

theorem find?_map_overwrite_ne (k1 k2 : String) (v : Val) (hne : k1 ≠ k2) :
    ∀ (m : ResMap), (m.map fun kv => if kv.1 == k1 then (k1, v) else kv).find?
      (fun kv => kv.1 == k2) = m.find? (fun kv => kv.1 == k2) := by
  intro m
  induction m with
  | nil => rfl
  | cons kv rest ih =>
    rw [List.map_cons]
    by_cases h2 : kv.1 == k2
    · have hkv2 : kv.1 = k2 := by simpa using h2
      have h1 : (kv.1 == k1) = false := by
        rw [hkv2]
        simp
        exact fun hh => hne hh.symm
      rw [if_neg (by simp [h1])]
      rw [List.find?_cons_of_pos (p := fun kv : String × Val => kv.1 == k2) _ h2,
        List.find?_cons_of_pos (p := fun kv : String × Val => kv.1 == k2) _ h2]
    · by_cases h1 : kv.1 == k1
      · rw [if_pos h1]
        rw [List.find?_cons_of_neg (p := fun kv : String × Val => kv.1 == k2) _
            (by simp; simpa using hne),
          List.find?_cons_of_neg (p := fun kv : String × Val => kv.1 == k2) _ (by simpa using h2)]
        exact ih
      · rw [if_neg h1]
        rw [List.find?_cons_of_neg (p := fun kv : String × Val => kv.1 == k2) _ (by simpa using h2),
          List.find?_cons_of_neg (p := fun kv : String × Val => kv.1 == k2) _ (by simpa using h2)]
        exact ih

theorem dictGet_dictSet_same (m : ResMap) (k : String) (v : Val) :
    dictGet (dictSet m k v) k = some v := by
  rw [dictSet]
  by_cases hck : containsKey m k
  · rw [if_pos hck, dictGet, find?_map_overwrite_same k v m hck]
    rfl
  · rw [if_neg hck, dictGet, List.find?_append]
    have hnone : m.find? (fun kv => kv.1 == k) = none := by
      rw [List.find?_eq_none]
      intro kv hkv hpred
      exact hck (List.any_eq_true.mpr ⟨kv, hkv, hpred⟩)
    rw [hnone]
    rw [List.find?_cons_of_pos (p := fun kv : String × Val => kv.1 == k) _ (by simp)]
    rfl

theorem dictGet_dictSet_ne (m : ResMap) (k1 k2 : String) (v : Val) (hne : k1 ≠ k2) :
    dictGet (dictSet m k1 v) k2 = dictGet m k2 := by
  rw [dictSet, dictGet, dictGet]
  by_cases hck : containsKey m k1
  · rw [if_pos hck, find?_map_overwrite_ne k1 k2 v hne m]
  · rw [if_neg hck, List.find?_append]
    have hnone : List.find? (fun kv => kv.1 == k2) [(k1, v)] = none := by
      rw [List.find?_eq_none]
      intro kv hkv hpred
      simp at hkv
      rw [hkv] at hpred
      simp at hpred
      exact hne hpred
    rw [hnone, Option.or_none]

/-! ## Inversion of successful pipe-mode runs -/

theorem procAnnotate_eq (parse : ParseFn) (ptype : String) (ds : Dataset)
    (args : ParseArgs) (h : Heap) (a : Nat) :
    procAnnotate parse ptype ds args h a =
      ((parse h a args).1,
        match (parse h a args).2 with
        | Except.error e2 => Except.error e2
        | Except.ok res => Except.ok ⟨annotateMap ptype args.lang res, ds⟩) := by
  rw [procAnnotate]
  cases hp : parse h a args with
  | mk h₁ r =>
    cases r with
    | error e2 => rfl
    | ok res =>
      cases hl : args.lang with
      | none => rfl
      | some lg => rfl

theorem pipe_txt_mode_inv {fuel : Nat} {parse : ParseFn} {h h₂ : Heap}
    {ir : InferenceResult} {iw : DataWriter} {s : Nat} {e : Option Nat} {d : Bool}
    {l : Option String} {pr : PipeResult}
    (hrun : InferenceResult.pipe_txt_mode fuel parse h ir iw s e d l =
      some (h₂, Except.ok pr)) :
    ∃ h' a' res,
      deepcopyAux fuel h ir.infer_res = some (h', a') ∧
      parse h' a' ⟨ir.dataset, iw, SupportedPdfParseMethod.TXT, s, e, d, l⟩ =
        (h₂, Except.ok res) ∧
      pr = ⟨annotateMap PARSE_TYPE_TXT l res, ir.dataset⟩ := by
  rw [InferenceResult.pipe_txt_mode, InferenceResult.apply] at hrun
  cases hd : deepcopyAux fuel h ir.infer_res with
  | none => rw [hd] at hrun; simp at hrun
  | some pa =>
    obtain ⟨h', a'⟩ := pa
    rw [hd] at hrun
    dsimp only at hrun
    simp only [Option.some.injEq] at hrun
    rw [procAnnotate_eq] at hrun
    have h1 := congrArg Prod.fst hrun
    have h2 := congrArg Prod.snd hrun
    dsimp only at h1 h2
    cases hq2 : (parse h' a' ⟨ir.dataset, iw, SupportedPdfParseMethod.TXT, s, e, d, l⟩).2 with
    | error e2 => rw [hq2] at h2; simp at h2
    | ok res =>
      rw [hq2] at h2
      dsimp only at h2
      simp only [Except.ok.injEq] at h2
      refine ⟨h', a', res, rfl, ?_, h2.symm⟩
      have hqq : parse h' a' ⟨ir.dataset, iw, SupportedPdfParseMethod.TXT, s, e, d, l⟩ =
          ((parse h' a' ⟨ir.dataset, iw, SupportedPdfParseMethod.TXT, s, e, d, l⟩).1,
           (parse h' a' ⟨ir.dataset, iw, SupportedPdfParseMethod.TXT, s, e, d, l⟩).2) := rfl
      rw [hqq, h1, hq2]

theorem pipe_ocr_mode_inv {fuel : Nat} {parse : ParseFn} {h h₂ : Heap}
    {ir : InferenceResult} {iw : DataWriter} {s : Nat} {e : Option Nat} {d : Bool}
    {l : Option String} {pr : PipeResult}
    (hrun : InferenceResult.pipe_ocr_mode fuel parse h ir iw s e d l =
      some (h₂, Except.ok pr)) :
    ∃ h' a' res,
      deepcopyAux fuel h ir.infer_res = some (h', a') ∧
      parse h' a' ⟨ir.dataset, iw, SupportedPdfParseMethod.OCR, s, e, d, l⟩ =
        (h₂, Except.ok res) ∧
      pr = ⟨annotateMap PARSE_TYPE_OCR l res, ir.dataset⟩ := by
  rw [InferenceResult.pipe_ocr_mode, InferenceResult.apply] at hrun
  cases hd : deepcopyAux fuel h ir.infer_res with
  | none => rw [hd] at hrun; simp at hrun
  | some pa =>
    obtain ⟨h', a'⟩ := pa
    rw [hd] at hrun
    dsimp only at hrun
    simp only [Option.some.injEq] at hrun
    rw [procAnnotate_eq] at hrun
    have h1 := congrArg Prod.fst hrun
    have h2 := congrArg Prod.snd hrun
    dsimp only at h1 h2
    cases hq2 : (parse h' a' ⟨ir.dataset, iw, SupportedPdfParseMethod.OCR, s, e, d, l⟩).2 with
    | error e2 => rw [hq2] at h2; simp at h2
    | ok res =>
      rw [hq2] at h2
      dsimp only at h2
      simp only [Except.ok.injEq] at h2
      refine ⟨h', a', res, rfl, ?_, h2.symm⟩
      have hqq : parse h' a' ⟨ir.dataset, iw, SupportedPdfParseMethod.OCR, s, e, d, l⟩ =
          ((parse h' a' ⟨ir.dataset, iw, SupportedPdfParseMethod.OCR, s, e, d, l⟩).1,
           (parse h' a' ⟨ir.dataset, iw, SupportedPdfParseMethod.OCR, s, e, d, l⟩).2) := rfl
      rw [hqq, h1, hq2]

/-! ## Fields of the annotated mapping -/

theorem annotateMap_parse_type (ptype : String) (lang : Option String) (res : ResMap) :
    dictGet (annotateMap ptype lang res) "_parse_type" = some (Val.vstr ptype) := by
  cases lang with
  | none =>
    rw [annotateMap]
    rw [dictGet_dictSet_ne _ "_version_name" "_parse_type" _ (by decide),
      dictGet_dictSet_same]
  | some lg =>
    rw [annotateMap]
    rw [dictGet_dictSet_ne _ "lang" "_parse_type" _ (by decide),
      dictGet_dictSet_ne _ "_version_name" "_parse_type" _ (by decide),
      dictGet_dictSet_same]

theorem annotateMap_version (ptype : String) (lang : Option String) (res : ResMap) :
    dictGet (annotateMap ptype lang res) "_version_name" =
      some (Val.vstr MAGIC_PDF_VERSION) := by
  cases lang with
  | none => rw [annotateMap, dictGet_dictSet_same]
  | some lg =>
    rw [annotateMap]
    rw [dictGet_dictSet_ne _ "lang" "_version_name" _ (by decide), dictGet_dictSet_same]

theorem annotateMap_lang_some (ptype : String) (lg : String) (res : ResMap) :
    dictGet (annotateMap ptype (some lg) res) "lang" = some (Val.vstr lg) := by
  rw [annotateMap, dictGet_dictSet_same]

theorem annotateMap_lang_none (ptype : String) (res : ResMap)
    (hres : dictGet res "lang" = none) :
    dictGet (annotateMap ptype none res) "lang" = none := by
  rw [annotateMap]
  rw [dictGet_dictSet_ne _ "_version_name" "lang" _ (by decide),
    dictGet_dictSet_ne _ "_parse_type" "lang" _ (by decide), hres]

theorem annotateMap_other_key (ptype : String) (lang : Option String) (res : ResMap)
    (k : String) (h1 : k ≠ "_parse_type") (h2 : k ≠ "_version_name") (h3 : k ≠ "lang") :
    dictGet (annotateMap ptype lang res) k = dictGet res k := by
  cases lang with
  | none =>
    rw [annotateMap]
    rw [dictGet_dictSet_ne _ "_version_name" k _ (fun hh => h2 hh.symm),
      dictGet_dictSet_ne _ "_parse_type" k _ (fun hh => h1 hh.symm)]
  | some lg =>
    rw [annotateMap]
    rw [dictGet_dictSet_ne _ "lang" k _ (fun hh => h3 hh.symm),
      dictGet_dictSet_ne _ "_version_name" k _ (fun hh => h2 hh.symm),
      dictGet_dictSet_ne _ "_parse_type" k _ (fun hh => h1 hh.symm)]

/-- Inversion of any successful pipe-mode run: some strategy tag was chosen
(forced by the explicit mode), the extraction procedure ran on a deep copy,
and the result is its output annotated. -/
theorem pipeRun_ok_inv {m : PipeModeCall} {fuel : Nat} {parse : ParseFn}
    {classify : ClassifyFn} {h h₂ : Heap} {ir : InferenceResult} {iw : DataWriter}
    {s : Nat} {e : Option Nat} {d : Bool} {l : Option String} {pr : PipeResult}
    (hrun : pipeRun m fuel parse classify h ir iw s e d l = some (h₂, Except.ok pr)) :
    ∃ ptype mth h' a' res,
      (ptype = PARSE_TYPE_TXT ∧ mth = SupportedPdfParseMethod.TXT ∨
        ptype = PARSE_TYPE_OCR ∧ mth = SupportedPdfParseMethod.OCR) ∧
      (m = PipeModeCall.txt → ptype = PARSE_TYPE_TXT) ∧
      (m = PipeModeCall.ocr → ptype = PARSE_TYPE_OCR) ∧
      deepcopyAux fuel h ir.infer_res = some (h', a') ∧
      parse h' a' ⟨ir.dataset, iw, mth, s, e, d, l⟩ = (h₂, Except.ok res) ∧
      pr = ⟨annotateMap ptype l res, ir.dataset⟩ := by
  cases m with
  | txt =>
    obtain ⟨h', a', res, hd, hp, hpr⟩ := pipe_txt_mode_inv hrun
    exact ⟨PARSE_TYPE_TXT, SupportedPdfParseMethod.TXT, h', a', res,
      Or.inl ⟨rfl, rfl⟩, fun _ => rfl, fun hh => PipeModeCall.noConfusion hh, hd, hp, hpr⟩
  | ocr =>
    obtain ⟨h', a', res, hd, hp, hpr⟩ := pipe_ocr_mode_inv hrun
    exact ⟨PARSE_TYPE_OCR, SupportedPdfParseMethod.OCR, h', a', res,
      Or.inr ⟨rfl, rfl⟩, fun hh => PipeModeCall.noConfusion hh, fun _ => rfl, hd, hp, hpr⟩
  | auto =>
    rw [pipeRun, InferenceResult.pipe_auto_mode] at hrun
    cases hcls : classify ir.dataset.data_bits with
    | error e2 =>
      rw [hcls] at hrun
      dsimp only at hrun
      simp at hrun
    | ok co =>
      rw [hcls] at hrun
      dsimp only at hrun
      by_cases hco : co = ClassifierOut.strat SupportedPdfParseMethod.TXT
      · rw [if_pos hco] at hrun
        obtain ⟨h', a', res, hd, hp, hpr⟩ := pipe_txt_mode_inv hrun
        exact ⟨PARSE_TYPE_TXT, SupportedPdfParseMethod.TXT, h', a', res,
          Or.inl ⟨rfl, rfl⟩, fun hh => PipeModeCall.noConfusion hh,
          fun hh => PipeModeCall.noConfusion hh, hd, hp, hpr⟩
      · rw [if_neg hco] at hrun
        obtain ⟨h', a', res, hd, hp, hpr⟩ := pipe_ocr_mode_inv hrun
        exact ⟨PARSE_TYPE_OCR, SupportedPdfParseMethod.OCR, h', a', res,
          Or.inr ⟨rfl, rfl⟩, fun hh => PipeModeCall.noConfusion hh,
          fun hh => PipeModeCall.noConfusion hh, hd, hp, hpr⟩

/-! ## Dispatch and error-propagation lemmas -/

theorem pipe_auto_mode_dispatch {fuel : Nat} {parse : ParseFn} {classify : ClassifyFn}
    {h : Heap} {ir : InferenceResult} {iw : DataWriter} {s : Nat} {e : Option Nat}
    {d : Bool} {l : Option String} {co : ClassifierOut}
    (hcls : classify ir.dataset.data_bits = Except.ok co) :
    (co = ClassifierOut.strat SupportedPdfParseMethod.TXT →
      ir.pipe_auto_mode fuel parse classify h iw s e d l =
        ir.pipe_txt_mode fuel parse h iw s e d l) ∧
    (co ≠ ClassifierOut.strat SupportedPdfParseMethod.TXT →
      ir.pipe_auto_mode fuel parse classify h iw s e d l =
        ir.pipe_ocr_mode fuel parse h iw s e d l) := by
  constructor <;> intro hco <;> rw [InferenceResult.pipe_auto_mode, hcls] <;> dsimp only
  · rw [if_pos hco]
  · rw [if_neg hco]

theorem pipe_auto_mode_classify_error {fuel : Nat} {parse : ParseFn}
    {classify : ClassifyFn} {h : Heap} {ir : InferenceResult} {iw : DataWriter}
    {s : Nat} {e : Option Nat} {d : Bool} {l : Option String} {err : PyErr}
    (hcls : classify ir.dataset.data_bits = Except.error err) :
    ir.pipe_auto_mode fuel parse classify h iw s e d l = some (h, Except.error err) := by
  rw [InferenceResult.pipe_auto_mode, hcls]

theorem pipe_txt_mode_error {fuel : Nat} {parse : ParseFn} {h h₂ : Heap}
    {ir : InferenceResult} {iw : DataWriter} {s : Nat} {e : Option Nat} {d : Bool}
    {l : Option String} {err : PyErr} {r : Except PyErr PipeResult}
    (herr : ∀ hh aa args, (parse hh aa args).2 = Except.error err)
    (hrun : InferenceResult.pipe_txt_mode fuel parse h ir iw s e d l = some (h₂, r)) :
    r = Except.error err := by
  rw [InferenceResult.pipe_txt_mode, InferenceResult.apply] at hrun
  cases hd : deepcopyAux fuel h ir.infer_res with
  | none => rw [hd] at hrun; simp at hrun
  | some pa =>
    obtain ⟨h', a'⟩ := pa
    rw [hd] at hrun
    dsimp only at hrun
    simp only [Option.some.injEq] at hrun
    rw [procAnnotate_eq] at hrun
    have h2 := congrArg Prod.snd hrun
    dsimp only at h2
    rw [herr h' a' _] at h2
    exact h2.symm

theorem pipe_ocr_mode_error {fuel : Nat} {parse : ParseFn} {h h₂ : Heap}
    {ir : InferenceResult} {iw : DataWriter} {s : Nat} {e : Option Nat} {d : Bool}
    {l : Option String} {err : PyErr} {r : Except PyErr PipeResult}
    (herr : ∀ hh aa args, (parse hh aa args).2 = Except.error err)
    (hrun : InferenceResult.pipe_ocr_mode fuel parse h ir iw s e d l = some (h₂, r)) :
    r = Except.error err := by
  rw [InferenceResult.pipe_ocr_mode, InferenceResult.apply] at hrun
  cases hd : deepcopyAux fuel h ir.infer_res with
  | none => rw [hd] at hrun; simp at hrun
  | some pa =>
    obtain ⟨h', a'⟩ := pa
    rw [hd] at hrun
    dsimp only at hrun
    simp only [Option.some.injEq] at hrun
    rw [procAnnotate_eq] at hrun
    have h2 := congrArg Prod.snd hrun
    dsimp only at h2
    rw [herr h' a' _] at h2
    exact h2.symm

/-! ## Path and filesystem lemmas -/

theorem lastSlashIdxAux_none {cs : List Char} (hc : ∀ c ∈ cs, c ≠ '/') :
    ∀ i, lastSlashIdxAux cs i = none := by
  induction cs with
  | nil => intro i; rfl
  | cons c cs ih =>
    intro i
    rw [lastSlashIdxAux]
    rw [ih (fun x hx => hc x (List.mem_cons_of_mem _ hx)) (i + 1)]
    dsimp only
    rw [if_neg (hc c (List.mem_cons_self _ _))]

theorem osDirname_no_slash {p : String} (hc : ∀ c ∈ p.toList, c ≠ '/') :
    osDirname p = "" := by
  rw [osDirname, lastSlashIdx, lastSlashIdxAux_none hc 0]
  rfl

/-! ## Claim theorems -/

theorem mutOK_of_heap_id (parse : ParseFn)
    (hid : ∀ hh aa args, (parse hh aa args).1 = hh) : MutOK parse := by
  constructor
  · intro hh aa args b hb hnr
    rw [hid hh aa args]
  · intro hh aa args hc
    rw [hid hh aa args]
    exact hc

/-- C1: the stored inference sequence is never mutated in place by the
pipe-mode operations.  For any two consecutive calls to `pipe_txt_mode`,
`pipe_ocr_mode` or `pipe_auto_mode` — with extraction procedures that, like
any Python callable, can only mutate objects reachable from the argument
they are handed — the content read from the stored sequence is unchanged
after each call, and the deep copy each call hands its extraction procedure
reads exactly the originally stored content. -/
theorem pipe_modes_deepcopy_isolation
    (m₁ m₂ : PipeModeCall) (fuel₁ fuel₂ : Nat) (parse₁ parse₂ : ParseFn)
    (classify₁ classify₂ : ClassifyFn) (h h₂ h₃ : Heap) (ir : InferenceResult)
    (iw₁ iw₂ : DataWriter) (s₁ s₂ : Nat) (e₁ e₂ : Option Nat) (d₁ d₂ : Bool)
    (l₁ l₂ : Option String) (r₁ r₂ : Except PyErr PipeResult)
    (hmut₁ : MutOK parse₁) (hmut₂ : MutOK parse₂)
    (hcl : heapClosed h = true) (ha : ir.infer_res < h.length)
    (hrun₁ : pipeRun m₁ fuel₁ parse₁ classify₁ h ir iw₁ s₁ e₁ d₁ l₁ = some (h₂, r₁))
    (hrun₂ : pipeRun m₂ fuel₂ parse₂ classify₂ h₂ ir iw₂ s₂ e₂ d₂ l₂ = some (h₃, r₂)) :
    (∀ g, readValAux h₂ g ir.infer_res = readValAux h g ir.infer_res) ∧
    (∀ g, readValAux h₃ g ir.infer_res = readValAux h g ir.infer_res) ∧
    (∀ h' a', deepcopyAux fuel₁ h ir.infer_res = some (h', a') →
      ∀ g v, readValAux h g ir.infer_res = some v → readValAux h' g a' = some v) ∧
    (∀ h' a', deepcopyAux fuel₂ h₂ ir.infer_res = some (h', a') →
      ∀ g v, readValAux h g ir.infer_res = some v → readValAux h' g a' = some v) := by
  have hclP := closedBelow_of_heapClosed hcl
  obtain ⟨hb1, hcl2, ha2, heq1⟩ := pipeRun_preserves hmut₁ hclP ha hrun₁
  obtain ⟨hb2, hcl3, ha3, heq2⟩ := pipeRun_preserves hmut₂ hcl2 ha2 hrun₂
  refine ⟨heq1, fun g => (heq2 g).trans (heq1 g), ?_, ?_⟩
  · intro h' a' hd g v hv
    exact (deepcopyAux_spec _ _ _ _ _ hd).2.2.2.2 g v hv
  · intro h' a' hd g v hv
    have hv2 : readValAux h₂ g ir.infer_res = some v := by rw [heq1 g]; exact hv
    exact (deepcopyAux_spec _ _ _ _ _ hd).2.2.2.2 g v hv2

theorem pipe_modes_deepcopy_isolation_witness :
    pipeRun PipeModeCall.txt 5 idParse clsW hW irW iwW 0 none false none =
      some (hW2, rW1) ∧
    pipeRun PipeModeCall.ocr 5 idParse clsW hW2 irW iwW 0 none false none =
      some (hW3, rW2) ∧
    readValAux hW3 5 irW.infer_res = readValAux hW 5 irW.infer_res := by
  refine ⟨by decide, by decide, ?_⟩
  exact (pipe_modes_deepcopy_isolation PipeModeCall.txt PipeModeCall.ocr 5 5
    idParse idParse clsW clsW hW hW2 hW3 irW iwW iwW 0 0 none none false false
    none none rW1 rW2 (mutOK_of_heap_id idParse (fun _ _ _ => rfl))
    (mutOK_of_heap_id idParse (fun _ _ _ => rfl)) (by decide) (by decide)
    (by decide) (by decide)).2.1 5

/-- C3: when the classifier labels the document bytes TEXT, `pipe_auto_mode`
returns output identical to a direct `pipe_txt_mode` call with the same
arguments; an OCR classification yields the output of `pipe_ocr_mode`. -/
theorem pipe_auto_mode_dispatch_correct
    (fuel : Nat) (parse : ParseFn) (classify : ClassifyFn) (h : Heap)
    (ir : InferenceResult) (iw : DataWriter) (s : Nat) (e : Option Nat)
    (d : Bool) (l : Option String) :
    (classify ir.dataset.data_bits =
        Except.ok (ClassifierOut.strat SupportedPdfParseMethod.TXT) →
      ir.pipe_auto_mode fuel parse classify h iw s e d l =
        ir.pipe_txt_mode fuel parse h iw s e d l) ∧
    (classify ir.dataset.data_bits =
        Except.ok (ClassifierOut.strat SupportedPdfParseMethod.OCR) →
      ir.pipe_auto_mode fuel parse classify h iw s e d l =
        ir.pipe_ocr_mode fuel parse h iw s e d l) := by
  constructor
  · intro hcls
    exact (pipe_auto_mode_dispatch hcls).1 rfl
  · intro hcls
    exact (pipe_auto_mode_dispatch hcls).2 (by decide)

theorem pipe_auto_mode_dispatch_correct_witness :
    clsW dsW.data_bits = Except.ok (ClassifierOut.strat SupportedPdfParseMethod.TXT) ∧
    clsOcr dsW.data_bits = Except.ok (ClassifierOut.strat SupportedPdfParseMethod.OCR) ∧
    InferenceResult.pipe_auto_mode 5 idParse clsW hW irW iwW 0 none false none =
      InferenceResult.pipe_txt_mode 5 idParse hW irW iwW 0 none false none ∧
    InferenceResult.pipe_auto_mode 5 idParse clsOcr hW irW iwW 0 none false none =
      InferenceResult.pipe_ocr_mode 5 idParse hW irW iwW 0 none false none :=
  ⟨rfl, rfl,
    (pipe_auto_mode_dispatch_correct 5 idParse clsW hW irW iwW 0 none false none).1 rfl,
    (pipe_auto_mode_dispatch_correct 5 idParse clsOcr hW irW iwW 0 none false none).2 rfl⟩

/-- C5: when the extraction procedure raises, every pipe-mode call
propagates the error unchanged — no `PipeResult` is produced, no annotation
happens — and the stored inference sequence's content is unaffected (for
auto mode the error surfaces whenever classification succeeded and so
extraction was reached). -/
theorem pipe_mode_extraction_error_propagation
    (m : PipeModeCall) (fuel : Nat) (parse : ParseFn) (classify : ClassifyFn)
    (h h₂ : Heap) (ir : InferenceResult) (iw : DataWriter) (s : Nat)
    (e : Option Nat) (d : Bool) (l : Option String) (r : Except PyErr PipeResult)
    (err : PyErr) (hmut : MutOK parse)
    (herr : ∀ hh aa args, (parse hh aa args).2 = Except.error err)
    (hcl : heapClosed h = true) (ha : ir.infer_res < h.length)
    (hrun : pipeRun m fuel parse classify h ir iw s e d l = some (h₂, r)) :
    (∀ g, readValAux h₂ g ir.infer_res = readValAux h g ir.infer_res) ∧
    (m = PipeModeCall.txt ∨ m = PipeModeCall.ocr → r = Except.error err) ∧
    (∀ co, classify ir.dataset.data_bits = Except.ok co → r = Except.error err) := by
  have hclP := closedBelow_of_heapClosed hcl
  obtain ⟨hb1, hcl2, ha2, heq1⟩ := pipeRun_preserves hmut hclP ha hrun
  refine ⟨heq1, ?_, ?_⟩
  · intro hm
    cases m with
    | txt =>
      rw [pipeRun] at hrun
      exact pipe_txt_mode_error herr hrun
    | ocr =>
      rw [pipeRun] at hrun
      exact pipe_ocr_mode_error herr hrun
    | auto => rcases hm with hm | hm <;> exact PipeModeCall.noConfusion hm
  · intro co hcls
    cases m with
    | txt =>
      rw [pipeRun] at hrun
      exact pipe_txt_mode_error herr hrun
    | ocr =>
      rw [pipeRun] at hrun
      exact pipe_ocr_mode_error herr hrun
    | auto =>
      rw [pipeRun] at hrun
      by_cases hco : co = ClassifierOut.strat SupportedPdfParseMethod.TXT
      · rw [(pipe_auto_mode_dispatch hcls).1 hco] at hrun
        exact pipe_txt_mode_error herr hrun
      · rw [(pipe_auto_mode_dispatch hcls).2 hco] at hrun
        exact pipe_ocr_mode_error herr hrun

theorem pipe_mode_extraction_error_propagation_witness :
    pipeRun PipeModeCall.txt 5 errParse clsW hW irW iwW 0 none false none =
      some (hW2, Except.error (PyErr.exn "parse failed")) ∧
    Except.error (PyErr.exn "parse failed") =
      (Except.error (PyErr.exn "parse failed") : Except PyErr PipeResult) ∧
    readValAux hW2 5 irW.infer_res = readValAux hW 5 irW.infer_res := by
  refine ⟨by decide, rfl, ?_⟩
  exact (pipe_mode_extraction_error_propagation PipeModeCall.txt 5 errParse clsW
    hW hW2 irW iwW 0 none false none (Except.error (PyErr.exn "parse failed"))
    (PyErr.exn "parse failed") (mutOK_of_heap_id errParse (fun _ _ _ => rfl))
    (fun _ _ _ => rfl) (by decide) (by decide) (by decide)).1 5

/-- C6 counterexample: with the classifier returning the unsupported value
`other "unknown"`, `pipe_auto_mode` neither propagates a failure nor aborts
before extraction: the else branch of the dispatch runs OCR extraction and
returns its successful result. -/
theorem pipe_auto_mode_unsupported_value_cex :
    clsOther dsW.data_bits = Except.ok (ClassifierOut.other "unknown") ∧
    InferenceResult.pipe_auto_mode 5 idParse clsOther hW irW iwW 0 none false none =
      InferenceResult.pipe_ocr_mode 5 idParse hW irW iwW 0 none false none ∧
    InferenceResult.pipe_ocr_mode 5 idParse hW irW iwW 0 none false none =
      some (hW2, rW2) ∧
    rW2 = Except.ok ⟨[("_parse_type", Val.vstr "ocr"),
      ("_version_name", Val.vstr MAGIC_PDF_VERSION)], dsW⟩ :=
  ⟨rfl, rfl, by decide, rfl⟩

/-- C6 amended: a classifier exception propagates unchanged out of
`pipe_auto_mode` with no extraction performed — the result is independent
of the extraction procedure and the heap is untouched.  A classifier return
value that is not the TXT strategy, including any unsupported value, is not
propagated as a failure: the else branch dispatches it to OCR-mode
extraction. -/
theorem pipe_auto_mode_classifier_failure_behavior
    (fuel : Nat) (classify : ClassifyFn) (h : Heap) (ir : InferenceResult)
    (iw : DataWriter) (s : Nat) (e : Option Nat) (d : Bool) (l : Option String) :
    (∀ err, classify ir.dataset.data_bits = Except.error err →
      ∀ parse : ParseFn, ir.pipe_auto_mode fuel parse classify h iw s e d l =
        some (h, Except.error err)) ∧
    (∀ co, classify ir.dataset.data_bits = Except.ok co →
      co ≠ ClassifierOut.strat SupportedPdfParseMethod.TXT →
      ∀ parse : ParseFn, ir.pipe_auto_mode fuel parse classify h iw s e d l =
        ir.pipe_ocr_mode fuel parse h iw s e d l) := by
  constructor
  · intro err hcls parse
    exact pipe_auto_mode_classify_error hcls
  · intro co hcls hco parse
    exact (pipe_auto_mode_dispatch hcls).2 hco

theorem pipe_auto_mode_classifier_failure_behavior_witness :
    clsErr dsW.data_bits = Except.error (PyErr.exn "classify failed") ∧
    InferenceResult.pipe_auto_mode 5 idParse clsErr hW irW iwW 0 none false none =
      some (hW, Except.error (PyErr.exn "classify failed")) ∧
    clsOther dsW.data_bits = Except.ok (ClassifierOut.other "unknown") ∧
    InferenceResult.pipe_auto_mode 5 idParse clsOther hW irW iwW 0 none false none =
      InferenceResult.pipe_ocr_mode 5 idParse hW irW iwW 0 none false none :=
  ⟨rfl,
    (pipe_auto_mode_classifier_failure_behavior 5 clsErr hW irW iwW
      0 none false none).1 (PyErr.exn "classify failed") rfl idParse,
    rfl,
    (pipe_auto_mode_classifier_failure_behavior 5 clsOther hW irW iwW
      0 none false none).2 (ClassifierOut.other "unknown") rfl (by decide) idParse⟩

/-- C7 counterexample: mutating, through the live reference returned by
`get_infer_res`, the stored list before a `pipe_txt_mode` call changes that
call's result compared to the same call without the mutation
(`hMutW` is the heap after the mutation through `irW.get_infer_res`). -/
theorem get_infer_res_mutation_changes_pipe_txt_cex :
    InferenceResult.pipe_txt_mode 9 spyParse hMutW irW iwW 0 none false none ≠
      InferenceResult.pipe_txt_mode 9 spyParse hW irW iwW 0 none false none := by
  decide

/-- C7 amended: `get_infer_res` returns the live stored reference — the
stored address itself, with no copy — so a subsequent `pipe_txt_mode` call
hands its extraction procedure a deep copy of the content *currently* at
that address; after an external mutation through the returned reference
this is the mutated content, not the content from before the mutation. -/
theorem get_infer_res_live_then_pipe_txt_observes_current
    (fuel : Nat) (parse : ParseFn) (h h₂ : Heap) (ir : InferenceResult)
    (iw : DataWriter) (s : Nat) (e : Option Nat) (d : Bool) (l : Option String)
    (r : Except PyErr PipeResult)
    (hrun : InferenceResult.pipe_txt_mode fuel parse h ir iw s e d l = some (h₂, r)) :
    ir.get_infer_res = ir.infer_res ∧
    ∃ h' a', deepcopyAux fuel h ir.get_infer_res = some (h', a') ∧
      ∀ g v, readValAux h g ir.get_infer_res = some v →
        readValAux h' g a' = some v := by
  refine ⟨rfl, ?_⟩
  rw [InferenceResult.pipe_txt_mode, InferenceResult.apply] at hrun
  cases hd : deepcopyAux fuel h ir.infer_res with
  | none => rw [hd] at hrun; simp at hrun
  | some pa =>
    obtain ⟨h', a'⟩ := pa
    exact ⟨h', a', hd, fun g v hv => (deepcopyAux_spec _ _ _ _ _ hd).2.2.2.2 g v hv⟩

theorem get_infer_res_live_observes_current_witness :
    (∃ h₂ r, InferenceResult.pipe_txt_mode 9 spyParse hMutW irW iwW 0 none false none =
      some (h₂, r)) ∧
    irW.get_infer_res = irW.infer_res ∧
    (∃ h' a', deepcopyAux 9 hMutW irW.get_infer_res = some (h', a') ∧
      ∀ g v, readValAux hMutW g irW.get_infer_res = some v →
        readValAux h' g a' = some v) := by
  have hrun : InferenceResult.pipe_txt_mode 9 spyParse hMutW irW iwW 0 none false none =
      some (hMutW ++ [HVal.vstr "B", HVal.vlist [3]],
        Except.ok ⟨[("seen", Val.vlist [Val.vstr "B"]),
          ("_parse_type", Val.vstr "txt"),
          ("_version_name", Val.vstr MAGIC_PDF_VERSION)], dsW⟩) := by decide
  refine ⟨⟨_, _, hrun⟩, ?_, ?_⟩
  · exact (get_infer_res_live_then_pipe_txt_observes_current 9 spyParse hMutW _
      irW iwW 0 none false none _ hrun).1
  · exact (get_infer_res_live_then_pipe_txt_observes_current 9 spyParse hMutW _
      irW iwW 0 none false none _ hrun).2

/-- C2: every successful pipe-mode call tags the resulting mapping with
`_parse_type` equal to the text tag for text mode and the OCR tag for OCR
mode (one of the two for auto mode, via dispatch), and with `_version_name`
equal to the process-wide version string. -/
theorem pipe_modes_parse_type_and_version
    (m : PipeModeCall) (fuel : Nat) (parse : ParseFn) (classify : ClassifyFn)
    (h h₂ : Heap) (ir : InferenceResult) (iw : DataWriter) (s : Nat)
    (e : Option Nat) (d : Bool) (l : Option String) (pr : PipeResult)
    (hrun : pipeRun m fuel parse classify h ir iw s e d l = some (h₂, Except.ok pr)) :
    dictGet pr.pipe_res "_version_name" = some (Val.vstr MAGIC_PDF_VERSION) ∧
    (m = PipeModeCall.txt →
      dictGet pr.pipe_res "_parse_type" = some (Val.vstr PARSE_TYPE_TXT)) ∧
    (m = PipeModeCall.ocr →
      dictGet pr.pipe_res "_parse_type" = some (Val.vstr PARSE_TYPE_OCR)) ∧
    (dictGet pr.pipe_res "_parse_type" = some (Val.vstr PARSE_TYPE_TXT) ∨
      dictGet pr.pipe_res "_parse_type" = some (Val.vstr PARSE_TYPE_OCR)) := by
  obtain ⟨ptype, mth, h', a', res, hps, htxt, hocr, hd, hp, hpr⟩ := pipeRun_ok_inv hrun
  subst hpr
  refine ⟨annotateMap_version ptype l res, ?_, ?_, ?_⟩
  · intro hm
    rw [htxt hm]
    exact annotateMap_parse_type _ l res
  · intro hm
    rw [hocr hm]
    exact annotateMap_parse_type _ l res
  · rcases hps with ⟨hp1, _⟩ | ⟨hp1, _⟩
    · left
      rw [hp1]
      exact annotateMap_parse_type _ l res
    · right
      rw [hp1]
      exact annotateMap_parse_type _ l res

theorem pipe_modes_parse_type_and_version_witness :
    pipeRun PipeModeCall.txt 5 idParse clsW hW irW iwW 0 none false none =
      some (hW2, Except.ok ⟨[("_parse_type", Val.vstr "txt"),
        ("_version_name", Val.vstr MAGIC_PDF_VERSION)], dsW⟩) ∧
    dictGet [("_parse_type", Val.vstr "txt"),
        ("_version_name", Val.vstr MAGIC_PDF_VERSION)] "_version_name" =
      some (Val.vstr MAGIC_PDF_VERSION) ∧
    dictGet [("_parse_type", Val.vstr "txt"),
        ("_version_name", Val.vstr MAGIC_PDF_VERSION)] "_parse_type" =
      some (Val.vstr PARSE_TYPE_TXT) := by
  have hrun : pipeRun PipeModeCall.txt 5 idParse clsW hW irW iwW 0 none false none =
      some (hW2, Except.ok ⟨[("_parse_type", Val.vstr "txt"),
        ("_version_name", Val.vstr MAGIC_PDF_VERSION)], dsW⟩) := by decide
  have hthm := pipe_modes_parse_type_and_version PipeModeCall.txt 5 idParse clsW
    hW hW2 irW iwW 0 none false none _ hrun
  exact ⟨hrun, hthm.1, hthm.2.1 rfl⟩

/-- C4: when `lang` is omitted (null), the resulting mapping of any
pipe-mode call contains no `lang` key (given that the extraction output
itself carries none, per the spec's ExtractionResult schema where `lang` is
dispatcher-owned); when a non-null `lang` is supplied, the resulting
mapping's `lang` equals the supplied value. -/
theorem pipe_modes_lang_field
    (m : PipeModeCall) (fuel : Nat) (parse : ParseFn) (classify : ClassifyFn)
    (h : Heap) (ir : InferenceResult) (iw : DataWriter) (s : Nat) (e : Option Nat)
    (d : Bool)
    (hnolang : ∀ hh aa args res, (parse hh aa args).2 = Except.ok res →
      dictGet res "lang" = none) :
    (∀ h₂ pr, pipeRun m fuel parse classify h ir iw s e d none =
        some (h₂, Except.ok pr) → dictGet pr.pipe_res "lang" = none) ∧
    (∀ lg h₂ pr, pipeRun m fuel parse classify h ir iw s e d (some lg) =
        some (h₂, Except.ok pr) →
      dictGet pr.pipe_res "lang" = some (Val.vstr lg)) := by
  constructor
  · intro h₂ pr hrun
    obtain ⟨ptype, mth, h', a', res, hps, htxt, hocr, hd, hp, hpr⟩ := pipeRun_ok_inv hrun
    subst hpr
    have hres : (parse h' a' ⟨ir.dataset, iw, mth, s, e, d, none⟩).2 = Except.ok res := by
      rw [hp]
    exact annotateMap_lang_none ptype res (hnolang _ _ _ _ hres)
  · intro lg h₂ pr hrun
    obtain ⟨ptype, mth, h', a', res, hps, htxt, hocr, hd, hp, hpr⟩ := pipeRun_ok_inv hrun
    subst hpr
    exact annotateMap_lang_some ptype lg res

theorem pipe_modes_lang_field_witness :
    pipeRun PipeModeCall.txt 5 idParse clsW hW irW iwW 0 none false none =
      some (hW2, Except.ok ⟨[("_parse_type", Val.vstr "txt"),
        ("_version_name", Val.vstr MAGIC_PDF_VERSION)], dsW⟩) ∧
    dictGet [("_parse_type", Val.vstr "txt"),
      ("_version_name", Val.vstr MAGIC_PDF_VERSION)] "lang" = none ∧
    pipeRun PipeModeCall.txt 5 idParse clsW hW irW iwW 0 none false (some "en") =
      some (hW2, Except.ok ⟨[("_parse_type", Val.vstr "txt"),
        ("_version_name", Val.vstr MAGIC_PDF_VERSION),
        ("lang", Val.vstr "en")], dsW⟩) ∧
    dictGet [("_parse_type", Val.vstr "txt"),
      ("_version_name", Val.vstr MAGIC_PDF_VERSION),
      ("lang", Val.vstr "en")] "lang" = some (Val.vstr "en") := by
  have hrun1 : pipeRun PipeModeCall.txt 5 idParse clsW hW irW iwW 0 none false none =
      some (hW2, Except.ok ⟨[("_parse_type", Val.vstr "txt"),
        ("_version_name", Val.vstr MAGIC_PDF_VERSION)], dsW⟩) := by decide
  have hrun2 : pipeRun PipeModeCall.txt 5 idParse clsW hW irW iwW 0 none false
      (some "en") = some (hW2, Except.ok ⟨[("_parse_type", Val.vstr "txt"),
        ("_version_name", Val.vstr MAGIC_PDF_VERSION),
        ("lang", Val.vstr "en")], dsW⟩) := by decide
  have hthm := pipe_modes_lang_field PipeModeCall.txt 5 idParse clsW hW irW iwW
    0 none false (fun hh aa args res hres => by
      simp only [idParse, Except.ok.injEq] at hres
      rw [← hres]
      rfl)
  exact ⟨hrun1, hthm.1 _ _ hrun1, hrun2, hthm.2 "en" _ _ hrun2⟩

/-- C8: with `end_page_id` unset, every successful pipe-mode call (running
the spec-modelled extraction procedure) processes the document through its
final page: the last page's content appears in the result's `pdf_info`. -/
theorem pipe_modes_end_unset_processes_last_page
    (m : PipeModeCall) (fuel : Nat) (classify : ClassifyFn) (h h₂ : Heap)
    (ir : InferenceResult) (iw : DataWriter) (s : Nat) (d : Bool)
    (l : Option String) (pr : PipeResult) (hne : ir.dataset.pages ≠ [])
    (hs : s ≤ ir.dataset.pages.length - 1)
    (hrun : pipeRun m fuel pdf_parse_union_model classify h ir iw s none d l =
      some (h₂, Except.ok pr)) :
    ∃ ws, dictGet pr.pipe_res "pdf_info" = some (Val.vlist ws) ∧
      ir.dataset.pages.getLast hne ∈ ws := by
  obtain ⟨ptype, mth, h', a', res, hps, htxt, hocr, hd, hp, hpr⟩ := pipeRun_ok_inv hrun
  subst hpr
  have hres : (pdf_parse_union_model h' a' ⟨ir.dataset, iw, mth, s, none, d, l⟩).2 =
      Except.ok res := by rw [hp]
  simp only [pdf_parse_union_model] at hres
  simp only [Except.ok.injEq] at hres
  refine ⟨(List.range ir.dataset.pages.length).filterMap fun i =>
    if s ≤ i ∧ i ≤ Option.getD none (ir.dataset.pages.length - 1) then
      ir.dataset.pages[i]? else none, ?_, ?_⟩
  · rw [annotateMap_other_key ptype l res "pdf_info" (by decide) (by decide) (by decide)]
    rw [← hres]
    rfl
  · apply List.mem_filterMap.mpr
    have hlen : ir.dataset.pages.length ≠ 0 := fun hh =>
      hne (List.length_eq_zero.mp hh)
    refine ⟨ir.dataset.pages.length - 1, List.mem_range.mpr (by omega), ?_⟩
    rw [if_pos ⟨hs, by simp⟩]
    rw [List.getLast_eq_getElem]
    exact List.getElem?_eq_getElem (by omega)

theorem pipe_modes_end_unset_processes_last_page_witness :
    ds3.pages ≠ [] ∧
    (∃ prx : PipeResult,
      pipeRun PipeModeCall.txt 5 pdf_parse_union_model clsW hW ir3 iwW 0 none
        false none = some (hW2, Except.ok prx) ∧
      ∃ ws, dictGet prx.pipe_res "pdf_info" = some (Val.vlist ws) ∧
        Val.vstr "p3" ∈ ws) := by
  have hne : ds3.pages ≠ [] := by decide
  have hrun : pipeRun PipeModeCall.txt 5 pdf_parse_union_model clsW hW ir3 iwW
      0 none false none = some (hW2, Except.ok
        ⟨[("pdf_info", Val.vlist [Val.vstr "p1", Val.vstr "p2", Val.vstr "p3"]),
          ("_parse_type", Val.vstr "txt"),
          ("_version_name", Val.vstr MAGIC_PDF_VERSION)], ds3⟩) := by decide
  refine ⟨hne, ⟨_, hrun, ?_⟩⟩
  have hthm := pipe_modes_end_unset_processes_last_page PipeModeCall.txt 5 clsW
    hW hW2 ir3 iwW 0 false none _ hne (by decide) hrun
  simpa using hthm

/-- C9: when the derived output directory is a nonempty name that does not
yet exist, `draw_model` creates it, does not raise, and delegates to the
renderer a fresh, content-identical deep copy of the stored sequence
together with the derived directory and filename; the stored heap cells are
untouched. -/
theorem draw_model_creates_missing_dir_and_delegates
    (fuel : Nat) (h : Heap) (fs : FS) (ir : InferenceResult) (p : String)
    (out : Except PyErr (Heap × FS × RenderCall))
    (hdir : osDirname p ≠ "") (hnotex : fs.contains (osDirname p) = false)
    (hsome : InferenceResult.draw_model fuel h fs ir p = some out) :
    ∃ h' fs2 rc, out = Except.ok (h', fs2, rc) ∧
      osDirname p ∈ fs2 ∧ rc.dirName = osDirname p ∧ rc.baseName = osBasename p ∧
      rc.dataset = ir.dataset ∧
      (∀ b, b < h.length → h'[b]? = h[b]?) ∧ h.length ≤ rc.modelCopy ∧
      (∀ g v, readValAux h g ir.infer_res = some v →
        readValAux h' g rc.modelCopy = some v) := by
  simp only [InferenceResult.draw_model] at hsome
  have hex : osPathExists fs (osDirname p) = false := by
    rw [osPathExists, hnotex]
    simp
  rw [hex] at hsome
  simp only [Bool.false_eq_true, if_false] at hsome
  rw [osMakedirs] at hsome
  rw [if_neg (fun hh => hdir (by simpa using hh))] at hsome
  dsimp only at hsome
  cases hd : deepcopyAux fuel h ir.infer_res with
  | none => rw [hd] at hsome; simp at hsome
  | some pa =>
    obtain ⟨h', a'⟩ := pa
    rw [hd] at hsome
    dsimp only at hsome
    simp only [Option.some.injEq] at hsome
    obtain ⟨⟨t, hext⟩, ha1, ha2, hF, hC⟩ := deepcopyAux_spec fuel h ir.infer_res h' a' hd
    refine ⟨h', osDirname p :: fs, ⟨a', ir.dataset, osDirname p, osBasename p⟩,
      hsome.symm, List.mem_cons_self _ _, rfl, rfl, rfl, ?_, ha1, ?_⟩
    · intro b hb
      rw [hext, getElem?_append_lt hb]
    · intro g v hv
      exact hC g v hv

theorem draw_model_creates_missing_dir_witness :
    osDirname "/tmp/out/boxes.png" ≠ "" ∧
    fsW.contains (osDirname "/tmp/out/boxes.png") = false ∧
    InferenceResult.draw_model 5 hW fsW irW "/tmp/out/boxes.png" =
      some (Except.ok (hW2, ["/tmp/out"],
        ⟨3, dsW, "/tmp/out", "boxes.png"⟩)) ∧
    (∃ h' fs2 rc,
      (Except.ok (hW2, ["/tmp/out"],
        (⟨3, dsW, "/tmp/out", "boxes.png"⟩ : RenderCall)) :
          Except PyErr (Heap × FS × RenderCall)) = Except.ok (h', fs2, rc) ∧
      osDirname "/tmp/out/boxes.png" ∈ fs2 ∧
      rc.dirName = osDirname "/tmp/out/boxes.png" ∧
      rc.baseName = osBasename "/tmp/out/boxes.png" ∧
      rc.dataset = irW.dataset ∧
      (∀ b, b < hW.length → hW2[b]? = hW[b]?) ∧ hW.length ≤ rc.modelCopy ∧
      (∀ g v, readValAux hW g irW.infer_res = some v →
        readValAux hW2 g rc.modelCopy = some v)) := by
  have hsome : InferenceResult.draw_model 5 hW fsW irW "/tmp/out/boxes.png" =
      some (Except.ok (hW2, ["/tmp/out"], ⟨3, dsW, "/tmp/out", "boxes.png"⟩)) := by
    decide
  refine ⟨by decide, by decide, hsome, ?_⟩
  have hthm := draw_model_creates_missing_dir_and_delegates 5 hW fsW irW
    "/tmp/out/boxes.png" _ (by decide) (by decide) hsome
  obtain ⟨h', fs2, rc, hout, hmem, hdir, hbase, hds, hbelow, hfresh, hcont⟩ := hthm
  obtain ⟨rfl, rfl, rfl⟩ : hW2 = h' ∧ ["/tmp/out"] = fs2 ∧
      (⟨3, dsW, "/tmp/out", "boxes.png"⟩ : RenderCall) = rc := by
    simpa using hout
  exact ⟨hW2, ["/tmp/out"], ⟨3, dsW, "/tmp/out", "boxes.png"⟩, rfl, hmem, hdir,
    hbase, hds, hbelow, hfresh, hcont⟩

/-- C10: for a file path with no directory component (no slash), the derived
directory name is the empty string, the existence check fails for it, and
the directory-creation call raises `FileNotFoundError` before any rendering
is delegated. -/
theorem draw_model_bare_filename_raises
    (fuel : Nat) (h : Heap) (fs : FS) (ir : InferenceResult) (p : String)
    (hns : ∀ c ∈ p.toList, c ≠ '/') :
    osDirname p = "" ∧ osPathExists fs (osDirname p) = false ∧
    InferenceResult.draw_model fuel h fs ir p =
      some (Except.error (PyErr.fileNotFoundError "")) := by
  have h0 := osDirname_no_slash hns
  refine ⟨h0, ?_, ?_⟩
  · rw [h0]
    rfl
  · simp only [InferenceResult.draw_model, h0]
    rfl

theorem draw_model_bare_filename_raises_witness :
    (∀ c ∈ "boxes.png".toList, c ≠ '/') ∧
    (osDirname "boxes.png" = "" ∧ osPathExists fsW (osDirname "boxes.png") = false ∧
      InferenceResult.draw_model 5 hW fsW irW "boxes.png" =
        some (Except.error (PyErr.fileNotFoundError ""))) :=
  ⟨by decide, draw_model_bare_filename_raises 5 hW fsW irW "boxes.png" (by decide)⟩
